import Mathlib

/-!
Verification development for `braindecode/models/eeginception_mi.py`
(EEG-Inception for Motor Imagery).

Tensors are modelled as a shape (a list of natural numbers) together with a
total real-valued indexing function; indices outside the shape are junk and
never observed.  Every torch layer used by the model is embedded as an
`Option Tensor`-returning function: `none` models the runtime shape errors
raised by torch.  Batch normalization is modelled in evaluation mode (a
per-channel affine map); training-mode batch statistics would change values,
never shapes.  Python floats are modelled as rationals and Python `int()`
as truncation toward zero.
-/

set_option autoImplicit false

namespace EEGInceptionMI

/-- Python `int()` applied to a rational: truncation toward zero. -/
def pyInt (q : ℚ) : ℤ :=
  q.num.tdiv q.den

/-- A tensor: a shape together with a total indexing function (multi-index
to real value).  Indices outside the shape are junk values. -/
structure Tensor where
  shape : List ℕ
  data : List ℕ → ℝ

/-- Shape of an optional tensor, for stating shape properties. -/
def shapeOf (t : Option Tensor) : Option (List ℕ) :=
  t.map Tensor.shape

/-- Parameters of a `nn.Conv2d` with kernel height 1: `weight o i k` is the
kernel entry of output channel `o`, input channel `i`, time offset `k`
(the singleton kernel-height index of the torch weight is dropped). -/
structure ConvParams where
  weight : ℕ → ℕ → ℕ → ℝ
  bias : ℕ → ℝ

/-- Parameters of a `nn.BatchNorm2d` (evaluation mode). -/
structure BNParams where
  gamma : ℕ → ℝ
  beta : ℕ → ℝ
  mean : ℕ → ℝ
  var : ℕ → ℝ

/-- Default `eps` of `nn.BatchNorm2d`. -/
noncomputable def bnEps : ℝ := 1 / 100000

/-- Embedding of `nn.Conv2d` with `in_channels = cin`, `out_channels = cout`,
kernel size `(1, K)`, stride 1 and explicit padding `(0, pl)` left /
`(0, pr)` right on the last (time) axis.  Fails (as torch does) on a
non-4-axis input, on an input-channel mismatch, on a kernel size below 1,
or when the padded width is smaller than the kernel. -/
noncomputable def conv2d1xK (cin cout K pl pr : ℕ) (p : ConvParams)
    (x : Tensor) : Option Tensor :=
  match x.shape with
  | [n, c, h, w] =>
    if 1 ≤ K ∧ c = cin ∧ 1 ≤ h ∧ K ≤ w + pl + pr then
      some ⟨[n, cout, h, w + pl + pr + 1 - K],
        fun i => match i with
        | [b, o, y, t] =>
          p.bias o + ∑ ic ∈ Finset.range cin, ∑ k ∈ Finset.range K,
            p.weight o ic k *
              (if pl ≤ t + k ∧ t + k < pl + w then
                x.data [b, ic, y, t + k - pl] else 0)
        | _ => 0⟩
    else none
  | _ => none

/-- A `padding="same"` convolution with kernel `(1, K)` and stride 1: torch
pads a total of `K - 1` on the time axis, `(K-1)/2` on the left and the
rest on the right. -/
noncomputable def convSame (cin cout K : ℕ) (p : ConvParams) (x : Tensor) :
    Option Tensor :=
  conv2d1xK cin cout K ((K - 1) / 2) (K - 1 - (K - 1) / 2) p x

/-- Maximum of a list of reals (junk 0 on the empty list; every use below
takes the maximum of a nonempty window). -/
noncomputable def listMax : List ℝ → ℝ
  | [] => 0
  | a :: l => l.foldl max a

/-- Embedding of `nn.MaxPool2d` with kernel `(1, K)`, stride 1 and padding
`(0, pad)`.  Torch requires `pad ≤ K / 2`; padded positions never win the
maximum, so the value is the maximum over the in-range window positions. -/
noncomputable def maxPool2d1K (K pad : ℕ) (x : Tensor) : Option Tensor :=
  match x.shape with
  | [n, c, h, w] =>
    if 1 ≤ K ∧ 2 * pad ≤ K ∧ 1 ≤ h ∧ K ≤ w + 2 * pad then
      some ⟨[n, c, h, w + 2 * pad + 1 - K],
        fun i => match i with
        | [b, cc, y, t] =>
          listMax ((List.range K).filterMap fun k =>
            if pad ≤ t + k ∧ t + k < pad + w then
              some (x.data [b, cc, y, t + k - pad]) else none)
        | _ => 0⟩
    else none
  | _ => none

/-- Embedding of `nn.BatchNorm2d numFeatures` in evaluation mode: a
per-channel affine normalization; fails on a channel-count mismatch. -/
noncomputable def batchNorm2d (numFeatures : ℕ) (p : BNParams) (x : Tensor) :
    Option Tensor :=
  match x.shape with
  | [n, c, h, w] =>
    if c = numFeatures then
      some ⟨[n, c, h, w],
        fun i => match i with
        | [_, cc, _, _] =>
          (x.data i - p.mean cc) / Real.sqrt (p.var cc + bnEps) * p.gamma cc
            + p.beta cc
        | _ => 0⟩
    else none
  | _ => none

/-- Pointwise application of an activation function (never fails). -/
def mapAct (act : ℝ → ℝ) (x : Tensor) : Tensor :=
  ⟨x.shape, fun i => act (x.data i)⟩

/-- The default activation of the model, `nn.ReLU()`. -/
noncomputable def relu (x : ℝ) : ℝ := max x 0

/-- Elementwise tensor addition (torch `+`).  In this network both operands
always have equal shapes, so general broadcasting is not modelled: unequal
shapes fail. -/
noncomputable def tadd (a b : Tensor) : Option Tensor :=
  if a.shape = b.shape then
    some ⟨a.shape, fun i => a.data i + b.data i⟩
  else none

/-- Embedding of `torch.cat(ts, dim=1)` for 4-axis tensors: all shapes must
agree outside axis 1, whose sizes add up. -/
noncomputable def cat1 : List Tensor → Option Tensor
  | [] => none
  | [t] =>
    match t.shape with
    | [_, _, _, _] => some t
    | _ => none
  | t :: ts =>
    match cat1 ts, t.shape with
    | some r, [n, c, h, w] =>
      match r.shape with
      | [n2, c2, h2, w2] =>
        if n = n2 ∧ h = h2 ∧ w = w2 then
          some ⟨[n, c + c2, h, w],
            fun i => match i with
            | [b, cc, y, tt] =>
              if cc < c then t.data [b, cc, y, tt] else r.data [b, cc - c, y, tt]
            | _ => 0⟩
        else none
      | _ => none
    | _, _ => none

/-- Embedding of `nn.AvgPool2d(kernel_size=(1, K))`: the stride defaults to
the kernel size, so the height is unchanged and the width becomes
`(w - K) / K + 1`; fails when the width is smaller than the kernel. -/
noncomputable def avgPool2d1K (K : ℕ) (x : Tensor) : Option Tensor :=
  match x.shape with
  | [n, c, h, w] =>
    if 1 ≤ K ∧ 1 ≤ h ∧ K ≤ w then
      some ⟨[n, c, h, (w - K) / K + 1],
        fun i => match i with
        | [b, cc, y, t] =>
          (∑ k ∈ Finset.range K, x.data [b, cc, y, t * K + k]) / (K : ℝ)
        | _ => 0⟩
    else none
  | _ => none

/-- Embedding of `nn.Flatten()` (start dim 1) at the only rank reached in
this network, rank 4: `[n, c, h, w]` becomes `[n, c * h * w]` in row-major
order. -/
def flatten (x : Tensor) : Option Tensor :=
  match x.shape with
  | [n, c, h, w] =>
    some ⟨[n, c * h * w],
      fun i => match i with
      | [b, j] => x.data [b, j / (h * w), j % (h * w) / w, j % w]
      | _ => 0⟩
  | _ => none

/-- Embedding of `nn.Linear(F, O)` applied to a rank-2 input (the only rank
reached in this network): fails unless the feature dimension equals `F`. -/
noncomputable def linear (F O : ℕ) (w : ℕ → ℕ → ℝ) (bias : ℕ → ℝ)
    (x : Tensor) : Option Tensor :=
  match x.shape with
  | [n, f] =>
    if f = F then
      some ⟨[n, O],
        fun i => match i with
        | [b, o] => bias o + ∑ j ∈ Finset.range F, w o j * x.data [b, j]
        | _ => 0⟩
    else none
  | _ => none

/-- Embedding of `nn.LogSoftmax(dim=1)` applied to a rank-2 input (the only
rank reached in this network). -/
noncomputable def logSoftmax (x : Tensor) : Option Tensor :=
  match x.shape with
  | [n, c] =>
    some ⟨[n, c],
      fun i => match i with
      | [b, j] =>
        x.data [b, j] - Real.log (∑ k ∈ Finset.range c, Real.exp (x.data [b, k]))
      | _ => 0⟩
  | _ => none

/-- Modelled from the spec: `Ensure4d` lives in `braindecode/models/modules.py`,
which is not part of the sources.  The spec describes it as inserting a
singleton axis into a 3-axis `(batch, channel, time)` input and failing on
other ranks; the position of the singleton is forced by the in-source
`_transpose_to_b_c_1_t` (a `permute(0, 1, 3, 2)` whose name promises a
`(batch, channel, 1, time)` result, and whose output feeds `(1, K)`-kernel
convolutions along the last axis): the singleton must be appended after
time, giving `(batch, channel, time, 1)`. -/
def ensure4d (x : Tensor) : Option Tensor :=
  if x.shape.length = 4 then some x
  else if x.shape.length = 3 then
    some ⟨x.shape ++ [1], fun i => x.data (i.take 3)⟩
  else none

/-- Embedding of `_transpose_to_b_c_1_t`: `x.permute(0, 1, 3, 2)`, swapping
the last two axes of a 4-axis tensor. -/
def transpose_to_b_c_1_t (x : Tensor) : Option Tensor :=
  match x.shape with
  | [a, b, c, d] =>
    some ⟨[a, b, d, c],
      fun i => match i with
      | [i0, i1, i2, i3] => x.data [i0, i1, i3, i2]
      | _ => 0⟩
  | _ => none

/-- Configuration of `_InceptionModuleMI`. -/
structure InceptionConfig where
  in_channels : ℕ
  n_filters : ℕ
  n_convs : ℕ
  kernel_unit_s : ℚ
  sfreq : ℚ

/-- Derived sample count of `_InceptionModuleMI.__init__`:
`kernel_unit = int(kernel_unit_s * sfreq)` (as a natural number for use as
a kernel size; a negative product would already fail at construction). -/
def kernelUnitN (cfg : InceptionConfig) : ℕ :=
  (pyInt (cfg.kernel_unit_s * cfg.sfreq)).toNat

/-- Learned parameters of one `_InceptionModuleMI`. -/
structure InceptionParams where
  bottleneck : ConvParams
  poolConv : ConvParams
  convs : ℕ → ConvParams
  bn : BNParams

/-- The branch list `[conv(X1) for conv in self.conv_list]`: the m-th branch
is a `padding="same"` convolution with kernel `(1, (m * 2 + 1) * kernel_unit)`
from `n_filters` to `n_filters` channels. -/
noncomputable def convBranches (nf ku : ℕ) (ps : ℕ → ConvParams)
    (X1 : Tensor) : ℕ → Option (List Tensor)
  | 0 => some []
  | m + 1 => do
    let ts ← convBranches nf ku ps X1 m
    let t ← convSame nf nf ((m * 2 + 1) * ku) (ps m) X1
    some (ts ++ [t])

/-- Embedding of `_InceptionModuleMI.forward`: bottleneck, the `n_convs`
parallel same-padding convolutions, the max-pooling branch with its 1×1
projection, concatenation on the channel axis, batch normalization and the
activation. -/
noncomputable def inceptionForward (cfg : InceptionConfig)
    (p : InceptionParams) (act : ℝ → ℝ) (X : Tensor) : Option Tensor := do
  let ku := kernelUnitN cfg
  let X1 ← conv2d1xK cfg.in_channels cfg.n_filters 1 0 0 p.bottleneck X
  let X1s ← convBranches cfg.n_filters ku p.convs X1 cfg.n_convs
  let X2 ← maxPool2d1K ku (ku / 2) X
  let X2c ← conv2d1xK cfg.in_channels cfg.n_filters 1 0 0 p.poolConv X2
  let out ← cat1 (X1s ++ [X2c])
  let out ← batchNorm2d (cfg.n_filters * (cfg.n_convs + 1)) p.bn out
  some (mapAct act out)

/-- Configuration of `_ResidualModuleMI`. -/
structure ResidualConfig where
  in_channels : ℕ
  n_filters : ℕ

/-- Learned parameters of one `_ResidualModuleMI`. -/
structure ResidualParams where
  conv : ConvParams
  bn : BNParams

/-- Embedding of `_ResidualModuleMI.forward`: a 1×1 convolution, batch
normalization, activation. -/
noncomputable def residualForward (cfg : ResidualConfig) (p : ResidualParams)
    (act : ℝ → ℝ) (X : Tensor) : Option Tensor := do
  let out ← conv2d1xK cfg.in_channels cfg.n_filters 1 0 0 p.conv X
  let out ← batchNorm2d cfg.n_filters p.bn out
  some (mapAct act out)

/-- Configuration of `EEGInceptionMI`. -/
structure Config where
  in_channels : ℕ
  n_classes : ℕ
  input_window_s : ℚ
  sfreq : ℚ
  n_convs : ℕ
  n_filters : ℕ
  kernel_unit_s : ℚ

/-- Derived sample count of `EEGInceptionMI.__init__`:
`input_window_samples = int(input_window_s * sfreq)` (as a natural number
for use as a pooling kernel size). -/
def inputWindowSamplesN (cfg : Config) : ℕ :=
  (pyInt (cfg.input_window_s * cfg.sfreq)).toNat

/-- The intermediate channel count `(n_convs + 1) * n_filters`. -/
def interCh (cfg : Config) : ℕ :=
  (cfg.n_convs + 1) * cfg.n_filters

/-- Configuration of the initial inception module. -/
def initialCfg (cfg : Config) : InceptionConfig :=
  ⟨cfg.in_channels, cfg.n_filters, cfg.n_convs, cfg.kernel_unit_s, cfg.sfreq⟩

/-- Configuration of each intermediate inception module. -/
def interCfg (cfg : Config) : InceptionConfig :=
  ⟨interCh cfg, cfg.n_filters, cfg.n_convs, cfg.kernel_unit_s, cfg.sfreq⟩

/-- Configuration of `residual_block_1`. -/
def residual1Cfg (cfg : Config) : ResidualConfig :=
  ⟨cfg.in_channels, interCh cfg⟩

/-- Configuration of `residual_block_2`. -/
def residual2Cfg (cfg : Config) : ResidualConfig :=
  ⟨interCh cfg, interCh cfg⟩

/-- Learned parameters of the whole network. -/
structure NetParams where
  initialP : InceptionParams
  inter1P : ℕ → InceptionParams
  res1P : ResidualParams
  res2P : ResidualParams
  inter2P : ℕ → InceptionParams
  fcW : ℕ → ℕ → ℝ
  fcB : ℕ → ℝ

/-- Embedding of `EEGInceptionMI.forward`, line by line: `ensuredims`,
`dimshuffle`, `residual_block_1`, the initial inception module, the loop
over `intermediate_inception_modules_1`, the first skip sum,
`residual_block_2`, the loop over `intermediate_inception_modules_2`, the
second skip sum, `ave_pooling`, `flat`, `fc` and `softmax`. -/
noncomputable def forward (cfg : Config) (p : NetParams) (act : ℝ → ℝ)
    (X : Tensor) : Option Tensor := do
  let X0 ← ensure4d X
  let X1 ← transpose_to_b_c_1_t X0
  let res1 ← residualForward (residual1Cfg cfg) p.res1P act X1
  let out0 ← inceptionForward (initialCfg cfg) p.initialP act X1
  let out1 ← (List.range 2).foldlM
    (fun t i => inceptionForward (interCfg cfg) (p.inter1P i) act t) out0
  let out2 ← tadd out1 res1
  let res2 ← residualForward (residual2Cfg cfg) p.res2P act out2
  let out3 ← (List.range 3).foldlM
    (fun t i => inceptionForward (interCfg cfg) (p.inter2P i) act t) out2
  let out4 ← tadd res2 out3
  let out5 ← avgPool2d1K (inputWindowSamplesN cfg) out4
  let out6 ← flatten out5
  let out7 ← linear (interCh cfg) cfg.n_classes p.fcW p.fcB out6
  logSoftmax out7

end EEGInceptionMI

namespace EEGInceptionMI

/-- Forward data flow exactly as the specification enumerates it (steps 1-8,
with the two inception stages unrolled): normalize dims and permute; res1;
initial inception and the two stage-1 modules in sequence; sum with res1;
res2 computed from the stage-1 sum; the three stage-2 modules in sequence;
sum with res2; average-pool, flatten, linear, log-softmax. -/
noncomputable def forwardSpecSteps (cfg : Config) (p : NetParams)
    (act : ℝ → ℝ) (X : Tensor) : Option Tensor := do
  let X0 ← ensure4d X
  let X1 ← transpose_to_b_c_1_t X0
  let res1 ← residualForward (residual1Cfg cfg) p.res1P act X1
  let o1 ← inceptionForward (initialCfg cfg) p.initialP act X1
  let o2 ← inceptionForward (interCfg cfg) (p.inter1P 0) act o1
  let o3 ← inceptionForward (interCfg cfg) (p.inter1P 1) act o2
  let o4 ← tadd o3 res1
  let res2 ← residualForward (residual2Cfg cfg) p.res2P act o4
  let o5 ← inceptionForward (interCfg cfg) (p.inter2P 0) act o4
  let o6 ← inceptionForward (interCfg cfg) (p.inter2P 1) act o5
  let o7 ← inceptionForward (interCfg cfg) (p.inter2P 2) act o6
  let o8 ← tadd res2 o7
  let o9 ← avgPool2d1K (inputWindowSamplesN cfg) o8
  let o10 ← flatten o9
  let o11 ← linear (interCh cfg) cfg.n_classes p.fcW p.fcB o10
  logSoftmax o11

/-- One activation function per use site, modelling the variant in which
every submodule owns an independent activation instance instead of sharing
the single default instance by reference. -/
structure ActSites where
  initialA : ℝ → ℝ
  inter1A : ℕ → (ℝ → ℝ)
  res1A : ℝ → ℝ
  res2A : ℝ → ℝ
  inter2A : ℕ → (ℝ → ℝ)

/-- The forward pass with per-site activation instances (the network in
which every submodule was constructed with its own activation object). -/
noncomputable def forwardMulti (cfg : Config) (p : NetParams) (s : ActSites)
    (X : Tensor) : Option Tensor := do
  let X0 ← ensure4d X
  let X1 ← transpose_to_b_c_1_t X0
  let res1 ← residualForward (residual1Cfg cfg) p.res1P s.res1A X1
  let out0 ← inceptionForward (initialCfg cfg) p.initialP s.initialA X1
  let out1 ← (List.range 2).foldlM
    (fun t i => inceptionForward (interCfg cfg) (p.inter1P i) (s.inter1A i) t) out0
  let out2 ← tadd out1 res1
  let res2 ← residualForward (residual2Cfg cfg) p.res2P s.res2A out2
  let out3 ← (List.range 3).foldlM
    (fun t i => inceptionForward (interCfg cfg) (p.inter2P i) (s.inter2A i) t) out2
  let out4 ← tadd res2 out3
  let out5 ← avgPool2d1K (inputWindowSamplesN cfg) out4
  let out6 ← flatten out5
  let out7 ← linear (interCh cfg) cfg.n_classes p.fcW p.fcB out6
  logSoftmax out7

/-- All-zero convolution parameters, for concrete instantiations. -/
noncomputable def zeroConv : ConvParams :=
  ⟨fun _ _ _ => 0, fun _ => 0⟩

/-- All-zero batch-normalization parameters, for concrete instantiations. -/
noncomputable def zeroBN : BNParams :=
  ⟨fun _ => 0, fun _ => 0, fun _ => 0, fun _ => 0⟩

/-- All-zero inception-module parameters. -/
noncomputable def zeroInc : InceptionParams :=
  ⟨zeroConv, zeroConv, fun _ => zeroConv, zeroBN⟩

/-- All-zero residual-module parameters. -/
noncomputable def zeroRes : ResidualParams :=
  ⟨zeroConv, zeroBN⟩

/-- All-zero network parameters. -/
noncomputable def zeroNet : NetParams :=
  ⟨zeroInc, fun _ => zeroInc, zeroRes, zeroRes, fun _ => zeroInc,
    fun _ _ => 0, fun _ => 0⟩

/-- The all-sites activation assignment in which every site holds the same
default activation, a fresh `nn.ReLU()` instance. -/
noncomputable def allRelu : ActSites :=
  ⟨relu, fun _ => relu, relu, relu, fun _ => relu⟩

/-- An all-zero tensor of a given shape. -/
noncomputable def zeroT (s : List ℕ) : Tensor :=
  ⟨s, fun _ => 0⟩

/-- A minimal configuration (all counts 1, one-second window at 1 Hz). -/
def tinyCfg : Config :=
  ⟨1, 1, 1, 1, 1, 1, 1⟩

/-- The reference configuration of the spec: `in_channels=22, n_classes=4,
input_window_s=4.5, sfreq=250, n_convs=5, n_filters=48,
kernel_unit_s=0.1`. -/
def refCfg : Config :=
  ⟨22, 4, 9 / 2, 250, 5, 48, 1 / 10⟩

/-- A configuration with an even derived kernel unit:
`kernel_unit_s=2, sfreq=1` gives `kernel_unit = 2`, and
`input_window_s=4` gives 4 input samples. -/
def evenCfg : Config :=
  ⟨1, 1, 4, 1, 1, 1, 2⟩

/-- An inception-module configuration with even kernel unit 2. -/
def evenIncCfg : InceptionConfig :=
  ⟨1, 1, 1, 2, 1⟩

/-- An inception-module configuration with odd kernel unit 3. -/
def oddIncCfg : InceptionConfig :=
  ⟨1, 1, 1, 3, 1⟩

/-- A configuration whose products `input_window_s * sfreq` and
`kernel_unit_s * sfreq` equal 2.7, separating truncation (2) from rounding
to nearest (3). -/
def cexC5 : Config :=
  ⟨1, 1, 27 / 10, 1, 1, 1, 27 / 10⟩

/-- The output tensor of the tiny network on the all-zero input, for use as
a concrete witness. -/
noncomputable def tinyOut : Tensor :=
  (forward tinyCfg zeroNet relu (zeroT [1, 1, 1])).getD ⟨[], fun _ => 0⟩

/-- The output tensor of the inception module at `oddIncCfg` on the
all-zero input, for use as a concrete witness. -/
noncomputable def oddIncOut : Tensor :=
  (inceptionForward oddIncCfg zeroInc relu (zeroT [1, 1, 1, 3])).getD
    ⟨[], fun _ => 0⟩

end EEGInceptionMI

/-! ### Per-layer shape lemmas -/

namespace EEGInceptionMI

lemma conv2d1xK_some (cin cout K pl pr : ℕ) (p : ConvParams) (n c h w : ℕ)
    (d : List ℕ → ℝ) (hK : 1 ≤ K) (hc : c = cin) (hh : 1 ≤ h)
    (hw : K ≤ w + pl + pr) :
    ∃ e, conv2d1xK cin cout K pl pr p ⟨[n, c, h, w], d⟩ =
      some ⟨[n, cout, h, w + pl + pr + 1 - K], e⟩ := by
  simp only [conv2d1xK]
  rw [if_pos ⟨hK, hc, hh, hw⟩]
  exact ⟨_, rfl⟩

lemma conv1x1_some (cin cout : ℕ) (p : ConvParams) (n c h w : ℕ)
    (d : List ℕ → ℝ) (hc : c = cin) (hh : 1 ≤ h) (hw : 1 ≤ w) :
    ∃ e, conv2d1xK cin cout 1 0 0 p ⟨[n, c, h, w], d⟩ =
      some ⟨[n, cout, h, w], e⟩ := by
  obtain ⟨e, he⟩ := conv2d1xK_some cin cout 1 0 0 p n c h w d le_rfl hc hh (by omega)
  have harith : w + 0 + 0 + 1 - 1 = w := by omega
  rw [harith] at he
  exact ⟨e, he⟩

lemma convSame_some (cin cout K : ℕ) (p : ConvParams) (n c h w : ℕ)
    (d : List ℕ → ℝ) (hK : 1 ≤ K) (hc : c = cin) (hh : 1 ≤ h) (hw : 1 ≤ w) :
    ∃ e, convSame cin cout K p ⟨[n, c, h, w], d⟩ = some ⟨[n, cout, h, w], e⟩ := by
  obtain ⟨e, he⟩ := conv2d1xK_some cin cout K ((K - 1) / 2) (K - 1 - (K - 1) / 2)
    p n c h w d hK hc hh (by omega)
  have harith : w + (K - 1) / 2 + (K - 1 - (K - 1) / 2) + 1 - K = w := by omega
  rw [harith] at he
  exact ⟨e, he⟩

lemma maxPool2d1K_some_odd (K n c h w : ℕ) (d : List ℕ → ℝ)
    (hK : K % 2 = 1) (hh : 1 ≤ h) (hw : 1 ≤ w) :
    ∃ e, maxPool2d1K K (K / 2) ⟨[n, c, h, w], d⟩ = some ⟨[n, c, h, w], e⟩ := by
  simp only [maxPool2d1K]
  rw [if_pos ⟨by omega, by omega, hh, by omega⟩]
  have harith : w + 2 * (K / 2) + 1 - K = w := by omega
  rw [harith]
  exact ⟨_, rfl⟩

lemma batchNorm2d_some (nf : ℕ) (p : BNParams) (n c h w : ℕ)
    (d : List ℕ → ℝ) (hc : c = nf) :
    ∃ e, batchNorm2d nf p ⟨[n, c, h, w], d⟩ = some ⟨[n, c, h, w], e⟩ := by
  simp only [batchNorm2d]
  rw [if_pos hc]
  exact ⟨_, rfl⟩

lemma tadd_some (s : List ℕ) (d1 d2 : List ℕ → ℝ) :
    ∃ e, tadd ⟨s, d1⟩ ⟨s, d2⟩ = some ⟨s, e⟩ := by
  simp only [tadd, eq_self_iff_true, if_true]
  exact ⟨_, rfl⟩

lemma mapAct_mk (act : ℝ → ℝ) (s : List ℕ) (d : List ℕ → ℝ) :
    mapAct act ⟨s, d⟩ = ⟨s, fun i => act (d i)⟩ := rfl

lemma ensure4d_rank3 (x : Tensor) (a b c : ℕ) (hx : x.shape = [a, b, c]) :
    ensure4d x = some ⟨[a, b, c, 1], fun i => x.data (i.take 3)⟩ := by
  simp [ensure4d, hx]

lemma ensure4d_rank4 (x : Tensor) (hx : x.shape.length = 4) :
    ensure4d x = some x := by
  simp [ensure4d, hx]

lemma transpose_some (x : Tensor) (a b c dd : ℕ) (hx : x.shape = [a, b, c, dd]) :
    transpose_to_b_c_1_t x = some ⟨[a, b, dd, c],
      fun i => match i with
      | [i0, i1, i2, i3] => x.data [i0, i1, i3, i2]
      | _ => 0⟩ := by
  obtain ⟨s, d⟩ := x
  simp only at hx
  subst hx
  rfl

end EEGInceptionMI

/-! ### Module-level shape lemmas -/

namespace EEGInceptionMI

lemma cat1_uniform (n h w : ℕ) :
    ∀ (ts : List Tensor) (cs : List ℕ),
      ts.map Tensor.shape = cs.map (fun c => [n, c, h, w]) → ts ≠ [] →
      ∃ e, cat1 ts = some ⟨[n, cs.sum, h, w], e⟩ := by
  intro ts
  induction ts with
  | nil => intro cs _ hne; exact absurd rfl hne
  | cons t ts ih =>
    intro cs hmap _
    cases cs with
    | nil => simp at hmap
    | cons c cs2 =>
      simp only [List.map_cons, List.cons.injEq] at hmap
      obtain ⟨hts, hrest⟩ := hmap
      cases ts with
      | nil =>
        cases cs2 with
        | cons c2 cs3 => simp at hrest
        | nil =>
          obtain ⟨st, dt⟩ := t
          simp only at hts
          subst hts
          refine ⟨dt, ?_⟩
          simp [cat1]
      | cons t2 rest =>
        have hne2 : t2 :: rest ≠ [] := by simp
        obtain ⟨e2, he2⟩ := ih cs2 hrest hne2
        obtain ⟨st, dt⟩ := t
        simp only at hts
        subst hts
        rw [List.sum_cons]
        simp only [cat1, he2, eq_self_iff_true, and_self, if_true]
        exact ⟨_, rfl⟩

lemma convBranches_some (nf ku : ℕ) (ps : ℕ → ConvParams) (n h w : ℕ)
    (d : List ℕ → ℝ) (hku : 1 ≤ ku) (hh : 1 ≤ h) (hw : 1 ≤ w) :
    ∀ m, ∃ ts, convBranches nf ku ps ⟨[n, nf, h, w], d⟩ m = some ts ∧
      ts.map Tensor.shape = List.replicate m [n, nf, h, w] := by
  intro m
  induction m with
  | zero => exact ⟨[], rfl, rfl⟩
  | succ m ih =>
    obtain ⟨ts, hts, hmap⟩ := ih
    have hKm : 1 ≤ (m * 2 + 1) * ku := Nat.mul_pos (by omega) hku
    obtain ⟨e, he⟩ := convSame_some nf nf ((m * 2 + 1) * ku) (ps m) n nf h w d
      hKm rfl hh hw
    refine ⟨ts ++ [⟨[n, nf, h, w], e⟩], ?_, ?_⟩
    · simp only [convBranches, hts, he, Option.bind_eq_bind, Option.some_bind]
    · simp only [List.map_append, hmap, List.map_cons, List.map_nil]
      rw [List.replicate_succ']

end EEGInceptionMI

namespace EEGInceptionMI

lemma residualForward_some (cfg : ResidualConfig) (p : ResidualParams)
    (act : ℝ → ℝ) (n c h w : ℕ) (d : List ℕ → ℝ) (hc : c = cfg.in_channels)
    (hh : 1 ≤ h) (hw : 1 ≤ w) :
    ∃ e, residualForward cfg p act ⟨[n, c, h, w], d⟩ =
      some ⟨[n, cfg.n_filters, h, w], e⟩ := by
  obtain ⟨e1, he1⟩ := conv1x1_some cfg.in_channels cfg.n_filters p.conv n c h w d hc hh hw
  obtain ⟨e2, he2⟩ := batchNorm2d_some cfg.n_filters p.bn n cfg.n_filters h w e1 rfl
  simp only [residualForward, he1, he2, Option.bind_eq_bind, Option.some_bind,
    mapAct_mk]
  exact ⟨_, rfl⟩

lemma inceptionForward_some (cfg : InceptionConfig) (p : InceptionParams)
    (act : ℝ → ℝ) (n c h w : ℕ) (d : List ℕ → ℝ) (hc : c = cfg.in_channels)
    (hodd : kernelUnitN cfg % 2 = 1) (hh : 1 ≤ h) (hw : 1 ≤ w) :
    ∃ e, inceptionForward cfg p act ⟨[n, c, h, w], d⟩ =
      some ⟨[n, (cfg.n_convs + 1) * cfg.n_filters, h, w], e⟩ := by
  have hku : 1 ≤ kernelUnitN cfg := by omega
  obtain ⟨e1, he1⟩ := conv1x1_some cfg.in_channels cfg.n_filters p.bottleneck
    n c h w d hc hh hw
  obtain ⟨ts, hts, hmap⟩ := convBranches_some cfg.n_filters (kernelUnitN cfg)
    p.convs n h w e1 hku hh hw cfg.n_convs
  obtain ⟨e2, he2⟩ := maxPool2d1K_some_odd (kernelUnitN cfg) n c h w d hodd hh hw
  obtain ⟨e3, he3⟩ := conv1x1_some cfg.in_channels cfg.n_filters p.poolConv
    n c h w e2 hc hh hw
  have hmapall : (ts ++ [⟨[n, cfg.n_filters, h, w], e3⟩] : List Tensor).map
      Tensor.shape = (List.replicate cfg.n_convs cfg.n_filters ++
        [cfg.n_filters]).map (fun cc => [n, cc, h, w]) := by
    simp [hmap]
  obtain ⟨e4, he4⟩ := cat1_uniform n h w (ts ++ [⟨[n, cfg.n_filters, h, w], e3⟩])
    (List.replicate cfg.n_convs cfg.n_filters ++ [cfg.n_filters]) hmapall (by simp)
  have hsum : (List.replicate cfg.n_convs cfg.n_filters ++ [cfg.n_filters]).sum
      = cfg.n_filters * (cfg.n_convs + 1) := by
    simp [List.sum_replicate, smul_eq_mul]
    ring
  rw [hsum] at he4
  obtain ⟨e5, he5⟩ := batchNorm2d_some (cfg.n_filters * (cfg.n_convs + 1)) p.bn
    n _ h w e4 rfl
  simp only [inceptionForward, he1, hts, he2, he3, he4, he5, Option.bind_eq_bind,
    Option.some_bind, mapAct_mk]
  rw [show cfg.n_filters * (cfg.n_convs + 1) = (cfg.n_convs + 1) * cfg.n_filters
    from Nat.mul_comm _ _]
  exact ⟨_, rfl⟩

end EEGInceptionMI

namespace EEGInceptionMI

lemma avgPool2d1K_some (K n c h w : ℕ) (d : List ℕ → ℝ) (hK : 1 ≤ K)
    (hh : 1 ≤ h) (hw : K ≤ w) :
    ∃ e, avgPool2d1K K ⟨[n, c, h, w], d⟩ =
      some ⟨[n, c, h, (w - K) / K + 1], e⟩ := by
  simp only [avgPool2d1K]
  rw [if_pos ⟨hK, hh, hw⟩]
  exact ⟨_, rfl⟩

lemma avgPool2d1K_none (K n c h w : ℕ) (d : List ℕ → ℝ) (hw : w < K) :
    avgPool2d1K K ⟨[n, c, h, w], d⟩ = none := by
  simp only [avgPool2d1K]
  rw [if_neg]
  rintro ⟨-, -, h3⟩
  omega

lemma flatten_mk (n c h w : ℕ) (d : List ℕ → ℝ) :
    ∃ e, flatten ⟨[n, c, h, w], d⟩ = some ⟨[n, c * h * w], e⟩ :=
  ⟨_, rfl⟩

lemma linear_some (F O n f : ℕ) (w : ℕ → ℕ → ℝ) (bias : ℕ → ℝ)
    (d : List ℕ → ℝ) (hf : f = F) :
    ∃ e, linear F O w bias ⟨[n, f], d⟩ = some ⟨[n, O], e⟩ := by
  simp only [linear]
  rw [if_pos hf]
  exact ⟨_, rfl⟩

lemma linear_none (F O n f : ℕ) (w : ℕ → ℕ → ℝ) (bias : ℕ → ℝ)
    (d : List ℕ → ℝ) (hf : f ≠ F) :
    linear F O w bias ⟨[n, f], d⟩ = none := by
  simp only [linear]
  rw [if_neg hf]

lemma logSoftmax_mk (n c : ℕ) (d : List ℕ → ℝ) :
    ∃ e, logSoftmax ⟨[n, c], d⟩ = some ⟨[n, c], e⟩ :=
  ⟨_, rfl⟩

lemma forward_stem (cfg : Config) (p : NetParams) (act : ℝ → ℝ) (b T : ℕ)
    (X : Tensor)
    (hX : X.shape = [b, cfg.in_channels, T] ∨
      X.shape = [b, cfg.in_channels, T, 1])
    (hodd : kernelUnitN (initialCfg cfg) % 2 = 1) (hT : 1 ≤ T) :
    ∃ u : Tensor, u.shape = [b, interCh cfg, 1, T] ∧
      forward cfg p act X =
        (avgPool2d1K (inputWindowSamplesN cfg) u).bind (fun o5 =>
          (flatten o5).bind (fun o6 =>
            (linear (interCh cfg) cfg.n_classes p.fcW p.fcB o6).bind
              logSoftmax)) := by
  -- the first two layers turn either accepted input into a
  -- (batch, channels, 1, time) tensor
  have key : ∃ (Y : Tensor) (d2 : List ℕ → ℝ), ensure4d X = some Y ∧
      transpose_to_b_c_1_t Y = some ⟨[b, cfg.in_channels, 1, T], d2⟩ := by
    rcases hX with h3 | h4
    · exact ⟨_, _, ensure4d_rank3 X b cfg.in_channels T h3,
        transpose_some _ b cfg.in_channels T 1 rfl⟩
    · exact ⟨X, _, ensure4d_rank4 X (by rw [h4]; rfl),
        transpose_some X b cfg.in_channels T 1 h4⟩
  obtain ⟨Y, d2, hY, htr⟩ := key
  have h1 : (1 : ℕ) ≤ 1 := le_rfl
  -- residual block 1
  obtain ⟨er1, her1⟩ := residualForward_some (residual1Cfg cfg) p.res1P act
    b cfg.in_channels 1 T d2 rfl h1 hT
  simp only [residual1Cfg, interCh] at her1
  -- initial inception module
  obtain ⟨e0, he0⟩ := inceptionForward_some (initialCfg cfg) p.initialP act
    b cfg.in_channels 1 T d2 rfl hodd h1 hT
  simp only [initialCfg] at he0
  -- first intermediate stage
  have hodd2 : kernelUnitN (interCfg cfg) % 2 = 1 := hodd
  obtain ⟨e1, he1⟩ := inceptionForward_some (interCfg cfg) (p.inter1P 0) act
    b ((cfg.n_convs + 1) * cfg.n_filters) 1 T e0 rfl hodd2 h1 hT
  simp only [interCfg, interCh] at he1
  obtain ⟨e2, he2⟩ := inceptionForward_some (interCfg cfg) (p.inter1P 1) act
    b ((cfg.n_convs + 1) * cfg.n_filters) 1 T e1 rfl hodd2 h1 hT
  simp only [interCfg, interCh] at he2
  -- first skip sum
  obtain ⟨et1, het1⟩ := tadd_some [b, (cfg.n_convs + 1) * cfg.n_filters, 1, T]
    e2 er1
  -- residual block 2
  obtain ⟨er2, her2⟩ := residualForward_some (residual2Cfg cfg) p.res2P act
    b ((cfg.n_convs + 1) * cfg.n_filters) 1 T et1 rfl h1 hT
  simp only [residual2Cfg, interCh] at her2
  -- second intermediate stage
  obtain ⟨e3, he3⟩ := inceptionForward_some (interCfg cfg) (p.inter2P 0) act
    b ((cfg.n_convs + 1) * cfg.n_filters) 1 T et1 rfl hodd2 h1 hT
  simp only [interCfg, interCh] at he3
  obtain ⟨e4, he4⟩ := inceptionForward_some (interCfg cfg) (p.inter2P 1) act
    b ((cfg.n_convs + 1) * cfg.n_filters) 1 T e3 rfl hodd2 h1 hT
  simp only [interCfg, interCh] at he4
  obtain ⟨e5, he5⟩ := inceptionForward_some (interCfg cfg) (p.inter2P 2) act
    b ((cfg.n_convs + 1) * cfg.n_filters) 1 T e4 rfl hodd2 h1 hT
  simp only [interCfg, interCh] at he5
  -- second skip sum
  obtain ⟨et2, het2⟩ := tadd_some [b, (cfg.n_convs + 1) * cfg.n_filters, 1, T]
    er2 e5
  refine ⟨⟨[b, (cfg.n_convs + 1) * cfg.n_filters, 1, T], et2⟩,
    by simp [interCh], ?_⟩
  have hr2 : List.range 2 = [0, 1] := rfl
  have hr3 : List.range 3 = [0, 1, 2] := rfl
  simp only [forward, interCh, initialCfg, interCfg, residual1Cfg, residual2Cfg,
    hY, htr, her1, he0, hr2, hr3, List.foldlM_cons,
    List.foldlM_nil, he1, he2, het1, her2, he3, he4, he5, het2,
    Option.bind_eq_bind, Option.some_bind, pure]

end EEGInceptionMI

namespace EEGInceptionMI

lemma forward_some_of_range (cfg : Config) (p : NetParams) (act : ℝ → ℝ)
    (b T : ℕ) (X : Tensor)
    (hX : X.shape = [b, cfg.in_channels, T] ∨
      X.shape = [b, cfg.in_channels, T, 1])
    (hodd : kernelUnitN (initialCfg cfg) % 2 = 1)
    (hws : 1 ≤ inputWindowSamplesN cfg)
    (hT1 : inputWindowSamplesN cfg ≤ T) (hT2 : T < 2 * inputWindowSamplesN cfg) :
    ∃ e, forward cfg p act X = some ⟨[b, cfg.n_classes], e⟩ := by
  obtain ⟨u, hu, heq⟩ := forward_stem cfg p act b T X hX hodd (by omega)
  obtain ⟨su, du⟩ := u
  simp only at hu
  subst hu
  obtain ⟨ea, hea⟩ := avgPool2d1K_some (inputWindowSamplesN cfg) b
    (interCh cfg) 1 T du (by omega) le_rfl hT1
  have hdiv : (T - inputWindowSamplesN cfg) / inputWindowSamplesN cfg + 1 = 1 := by
    rw [Nat.div_eq_of_lt (by omega)]
  rw [hdiv] at hea
  obtain ⟨eb, heb⟩ := flatten_mk b (interCh cfg) 1 1 ea
  have hmul : interCh cfg * 1 * 1 = interCh cfg := by ring
  rw [hmul] at heb
  obtain ⟨ec, hec⟩ := linear_some (interCh cfg) cfg.n_classes b (interCh cfg)
    p.fcW p.fcB eb rfl
  obtain ⟨ed, hed⟩ := logSoftmax_mk b cfg.n_classes ec
  rw [heq]
  simp only [hea, heb, hec, hed, Option.some_bind]
  exact ⟨_, rfl⟩

lemma forward_none_of_small (cfg : Config) (p : NetParams) (act : ℝ → ℝ)
    (b T : ℕ) (X : Tensor)
    (hX : X.shape = [b, cfg.in_channels, T] ∨
      X.shape = [b, cfg.in_channels, T, 1])
    (hodd : kernelUnitN (initialCfg cfg) % 2 = 1)
    (hT1 : 1 ≤ T) (hT2 : T < inputWindowSamplesN cfg) :
    forward cfg p act X = none := by
  obtain ⟨u, hu, heq⟩ := forward_stem cfg p act b T X hX hodd hT1
  obtain ⟨su, du⟩ := u
  simp only at hu
  subst hu
  rw [heq, avgPool2d1K_none (inputWindowSamplesN cfg) b (interCh cfg) 1 T du hT2]
  rfl

lemma forward_none_of_large (cfg : Config) (p : NetParams) (act : ℝ → ℝ)
    (b T : ℕ) (X : Tensor)
    (hX : X.shape = [b, cfg.in_channels, T] ∨
      X.shape = [b, cfg.in_channels, T, 1])
    (hodd : kernelUnitN (initialCfg cfg) % 2 = 1)
    (hnf : 1 ≤ cfg.n_filters) (hws : 1 ≤ inputWindowSamplesN cfg)
    (hT : 2 * inputWindowSamplesN cfg ≤ T) :
    forward cfg p act X = none := by
  obtain ⟨u, hu, heq⟩ := forward_stem cfg p act b T X hX hodd (by omega)
  obtain ⟨su, du⟩ := u
  simp only at hu
  subst hu
  obtain ⟨ea, hea⟩ := avgPool2d1K_some (inputWindowSamplesN cfg) b
    (interCh cfg) 1 T du (by omega) le_rfl (by omega)
  obtain ⟨eb, heb⟩ := flatten_mk b (interCh cfg) 1
    ((T - inputWindowSamplesN cfg) / inputWindowSamplesN cfg + 1) ea
  have hI : 0 < interCh cfg := by
    have : 0 < (cfg.n_convs + 1) * cfg.n_filters :=
      Nat.mul_pos (by omega) (by omega)
    simpa [interCh] using this
  have hw2 : 2 ≤ (T - inputWindowSamplesN cfg) / inputWindowSamplesN cfg + 1 := by
    have h1 : 1 ≤ (T - inputWindowSamplesN cfg) / inputWindowSamplesN cfg :=
      (Nat.one_le_div_iff (by omega)).mpr (by omega)
    omega
  have hne : interCh cfg * 1 *
      ((T - inputWindowSamplesN cfg) / inputWindowSamplesN cfg + 1) ≠
      interCh cfg := by
    rw [Nat.mul_one]
    intro hEq
    have := Nat.eq_of_mul_eq_mul_left hI (hEq.trans (Nat.mul_one _).symm)
    omega
  have hlin := linear_none (interCh cfg) cfg.n_classes b
    (interCh cfg * 1 * ((T - inputWindowSamplesN cfg) / inputWindowSamplesN cfg + 1))
    p.fcW p.fcB eb hne
  rw [heq]
  simp only [hea, heb, hlin, Option.some_bind, Option.none_bind]

lemma conv1x1_none_w0 (cin cout : ℕ) (p : ConvParams) (n c h : ℕ)
    (d : List ℕ → ℝ) :
    conv2d1xK cin cout 1 0 0 p ⟨[n, c, h, 0], d⟩ = none := by
  simp only [conv2d1xK]
  rw [if_neg]
  rintro ⟨-, -, -, h4⟩
  omega

lemma residualForward_none_w0 (cfg : ResidualConfig) (p : ResidualParams)
    (act : ℝ → ℝ) (n c h : ℕ) (d : List ℕ → ℝ) :
    residualForward cfg p act ⟨[n, c, h, 0], d⟩ = none := by
  simp only [residualForward, conv1x1_none_w0, Option.bind_eq_bind,
    Option.none_bind]

lemma forward_none_T0 (cfg : Config) (p : NetParams) (act : ℝ → ℝ)
    (b : ℕ) (d : List ℕ → ℝ) :
    forward cfg p act ⟨[b, cfg.in_channels, 0], d⟩ = none := by
  have hY := ensure4d_rank3 (⟨[b, cfg.in_channels, 0], d⟩ : Tensor)
    b cfg.in_channels 0 rfl
  have htr := transpose_some
    (⟨[b, cfg.in_channels, 0, 1],
      fun i => (⟨[b, cfg.in_channels, 0], d⟩ : Tensor).data (i.take 3)⟩ : Tensor)
    b cfg.in_channels 0 1 rfl
  simp only [forward, hY, htr, residualForward_none_w0, Option.bind_eq_bind,
    Option.some_bind, Option.none_bind]

end EEGInceptionMI

namespace EEGInceptionMI

lemma batchNorm2d_some_inv (nf : ℕ) (p : BNParams) (x y : Tensor)
    (h : batchNorm2d nf p x = some y) :
    ∃ n h0 w, x.shape = [n, nf, h0, w] ∧ y.shape = [n, nf, h0, w] := by
  obtain ⟨s, dx⟩ := x
  rcases s with _ | ⟨n, s⟩
  · simp [batchNorm2d] at h
  rcases s with _ | ⟨c, s⟩
  · simp [batchNorm2d] at h
  rcases s with _ | ⟨h0, s⟩
  · simp [batchNorm2d] at h
  rcases s with _ | ⟨w, s⟩
  · simp [batchNorm2d] at h
  rcases s with _ | ⟨a, s⟩
  swap
  · simp [batchNorm2d] at h
  simp only [batchNorm2d] at h
  split_ifs at h with hc
  subst hc
  refine ⟨n, h0, w, rfl, ?_⟩
  have hy := congrArg Tensor.shape (Option.some.inj h)
  simpa using hy.symm

lemma linear_some_inv (F O : ℕ) (w : ℕ → ℕ → ℝ) (bias : ℕ → ℝ)
    (x y : Tensor) (h : linear F O w bias x = some y) :
    ∃ n, x.shape = [n, F] ∧ y.shape = [n, O] := by
  obtain ⟨s, dx⟩ := x
  rcases s with _ | ⟨n, s⟩
  · simp [linear] at h
  rcases s with _ | ⟨f, s⟩
  · simp [linear] at h
  rcases s with _ | ⟨a, s⟩
  swap
  · simp [linear] at h
  simp only [linear] at h
  split_ifs at h with hf
  subst hf
  refine ⟨n, rfl, ?_⟩
  have hy := congrArg Tensor.shape (Option.some.inj h)
  simpa using hy.symm

lemma logSoftmax_some_inv (x y : Tensor) (h : logSoftmax x = some y) :
    ∃ n c, x.shape = [n, c] ∧
      y = ⟨[n, c], fun i => match i with
        | [b, j] => x.data [b, j] -
            Real.log (∑ k ∈ Finset.range c, Real.exp (x.data [b, k]))
        | _ => 0⟩ := by
  obtain ⟨s, dx⟩ := x
  rcases s with _ | ⟨n, s⟩
  · simp [logSoftmax] at h
  rcases s with _ | ⟨c, s⟩
  · simp [logSoftmax] at h
  rcases s with _ | ⟨a, s⟩
  swap
  · simp [logSoftmax] at h
  simp only [logSoftmax] at h
  exact ⟨n, c, rfl, (Option.some.inj h).symm⟩

lemma logSoftmax_row_sum (f : ℕ → ℝ) (c : ℕ) (hc : 1 ≤ c) :
    ∑ j ∈ Finset.range c,
      Real.exp (f j - Real.log (∑ k ∈ Finset.range c, Real.exp (f k))) = 1 := by
  have hS : 0 < ∑ k ∈ Finset.range c, Real.exp (f k) :=
    Finset.sum_pos (fun k _ => Real.exp_pos _)
      (Finset.nonempty_range_iff.mpr (by omega))
  simp only [Real.exp_sub, Real.exp_log hS]
  rw [← Finset.sum_div, div_self (ne_of_gt hS)]

end EEGInceptionMI

namespace EEGInceptionMI

lemma pyInt_eq_floor (q : ℚ) (hq : 0 ≤ q) : pyInt q = ⌊q⌋ := by
  rw [pyInt, Rat.floor_def]
  exact Int.tdiv_eq_ediv (Rat.num_nonneg.mpr hq) (by positivity)

lemma kernelUnitN_refCfg : kernelUnitN (initialCfg refCfg) = 25 := by
  with_unfolding_all rfl

lemma inputWindowSamplesN_refCfg : inputWindowSamplesN refCfg = 1125 := by
  with_unfolding_all rfl

lemma kernelUnitN_oddIncCfg : kernelUnitN oddIncCfg = 3 := by
  with_unfolding_all rfl

lemma forward_tiny_eq :
    forward tinyCfg zeroNet relu (zeroT [1, 1, 1]) = some tinyOut := by
  with_unfolding_all rfl

lemma inception_odd_eq :
    inceptionForward oddIncCfg zeroInc relu (zeroT [1, 1, 1, 3]) =
      some oddIncOut := by
  with_unfolding_all rfl

end EEGInceptionMI

/-! ### Claim theorems -/

namespace EEGInceptionMI

/-- Claim C5 (counterexample): with `input_window_s = kernel_unit_s = 2.7`
and `sfreq = 1`, the code derives 2 samples (Python `int()` truncates),
while rounding to the nearest integer gives 3: the claim that the derived
sample counts are computed by rounding to nearest is false. -/
theorem claim_C5_counterexample :
    inputWindowSamplesN cexC5 = 2 ∧ kernelUnitN (initialCfg cexC5) = 2 ∧
    round (cexC5.input_window_s * cexC5.sfreq) = 3 ∧
    round (cexC5.kernel_unit_s * cexC5.sfreq) = 3 := by
  refine ⟨by with_unfolding_all rfl, by with_unfolding_all rfl, ?_, ?_⟩
  · norm_num [cexC5, round_eq]
  · norm_num [cexC5, round_eq]

/-- Claim C5 (amended): the derived sample counts
`input_window_samples = int(input_window_s * sfreq)` and
`kernel_unit = int(kernel_unit_s * sfreq)` are computed by truncation
toward zero, which on the nonnegative durations and frequencies in use is
the floor, not rounding to the nearest integer. -/
theorem claim_C5_amended (cfg : Config) (hw : 0 ≤ cfg.input_window_s)
    (hk : 0 ≤ cfg.kernel_unit_s) (hf : 0 ≤ cfg.sfreq) :
    (inputWindowSamplesN cfg : ℤ) = ⌊cfg.input_window_s * cfg.sfreq⌋ ∧
    (kernelUnitN (initialCfg cfg) : ℤ) = ⌊cfg.kernel_unit_s * cfg.sfreq⌋ := by
  have h1 : (0 : ℚ) ≤ cfg.input_window_s * cfg.sfreq := mul_nonneg hw hf
  have h2 : (0 : ℚ) ≤ cfg.kernel_unit_s * cfg.sfreq := mul_nonneg hk hf
  constructor
  · rw [inputWindowSamplesN, pyInt_eq_floor _ h1,
      Int.toNat_of_nonneg (Int.floor_nonneg.mpr h1)]
  · show ((pyInt (cfg.kernel_unit_s * cfg.sfreq)).toNat : ℤ) = _
    rw [pyInt_eq_floor _ h2, Int.toNat_of_nonneg (Int.floor_nonneg.mpr h2)]

/-- Claim C5 (witness): the amended statement evaluated at the reference
configuration, where the products are 1125 and 25. -/
theorem claim_C5_witness :
    (0 : ℚ) ≤ refCfg.input_window_s ∧ (0 : ℚ) ≤ refCfg.kernel_unit_s ∧
    (0 : ℚ) ≤ refCfg.sfreq ∧
    ((inputWindowSamplesN refCfg : ℤ) = ⌊refCfg.input_window_s * refCfg.sfreq⌋ ∧
     (kernelUnitN (initialCfg refCfg) : ℤ) =
       ⌊refCfg.kernel_unit_s * refCfg.sfreq⌋) :=
  ⟨by norm_num [refCfg], by norm_num [refCfg], by norm_num [refCfg],
    claim_C5_amended refCfg (by norm_num [refCfg]) (by norm_num [refCfg])
      (by norm_num [refCfg])⟩

/-- Claim C6 (counterexample): on a 3-axis input of shape (2, 3, 5) the
dimension normalizer returns shape (2, 3, 5, 1) - the singleton axis is
appended after the time axis - not the claimed (2, 3, 1, 5). -/
theorem claim_C6_counterexample :
    shapeOf (ensure4d (zeroT [2, 3, 5])) = some [2, 3, 5, 1] ∧
    some [2, 3, 5, 1] ≠ some ([2, 3, 1, 5] : List ℕ) := by
  constructor
  · with_unfolding_all rfl
  · decide

/-- Claim C6 (amended): the dimension normalizer maps a 3-axis
(batch, channel, time) input to (batch, channel, time, 1) - the singleton
axis appended after time, so that the subsequent axis permuter produces
(batch, channel, 1, time) - returns a 4-axis input unchanged, and fails on
any other rank. -/
theorem claim_C6_amended (x : Tensor) :
    (∀ b c t, x.shape = [b, c, t] →
      shapeOf (ensure4d x) = some [b, c, t, 1]) ∧
    (x.shape.length = 4 → ensure4d x = some x) ∧
    (x.shape.length ≠ 3 → x.shape.length ≠ 4 → ensure4d x = none) := by
  refine ⟨?_, ensure4d_rank4 x, ?_⟩
  · intro b c t h3
    rw [ensure4d_rank3 x b c t h3]
    simp [shapeOf]
  · intro h3 h4
    simp [ensure4d, h3, h4]

/-- Claim C6 (witness): the amended statement evaluated on concrete inputs
of ranks 3, 4 and 2. -/
theorem claim_C6_witness :
    shapeOf (ensure4d (zeroT [4, 5, 6])) = some [4, 5, 6, 1] ∧
    ensure4d (zeroT [1, 2, 3, 4]) = some (zeroT [1, 2, 3, 4]) ∧
    ensure4d (zeroT [7, 8]) = none :=
  ⟨(claim_C6_amended (zeroT [4, 5, 6])).1 4 5 6 rfl,
   (claim_C6_amended (zeroT [1, 2, 3, 4])).2.1 rfl,
   (claim_C6_amended (zeroT [7, 8])).2.2 (by simp [zeroT]) (by simp [zeroT])⟩

/-- Claim C1 (counterexample): with the valid configuration `in_channels=1,
n_classes=1, input_window_s=4, sfreq=1, n_convs=1, n_filters=1,
kernel_unit_s=2` (derived kernel unit 2, an even number) and a conforming
input of shape (1, in_channels, input_window_samples) = (1, 1, 4), the
forward evaluation fails instead of returning a (1, n_classes) tensor: the
even-kernel max-pooling branch yields time length 5 against 4 from the
convolution branches and the concatenation raises. -/
theorem claim_C1_counterexample :
    inputWindowSamplesN evenCfg = 4 ∧ kernelUnitN (initialCfg evenCfg) = 2 ∧
    (forward evenCfg zeroNet relu
      (zeroT [1, evenCfg.in_channels, 4])).isSome = false := by
  refine ⟨?_, ?_, ?_⟩
  · with_unfolding_all rfl
  · with_unfolding_all rfl
  · with_unfolding_all rfl

/-- Claim C1 (amended): for every configuration whose derived kernel unit
`int(kernel_unit_s * sfreq)` is odd and whose derived window length
`int(input_window_s * sfreq)` is at least 1, and for every batch size and
input data, the forward evaluation of a (batch, in_channels,
input_window_samples) input succeeds and returns a (batch, n_classes)
tensor. -/
theorem claim_C1_amended (cfg : Config) (p : NetParams) (act : ℝ → ℝ)
    (b : ℕ) (d : List ℕ → ℝ)
    (hodd : kernelUnitN (initialCfg cfg) % 2 = 1)
    (hws : 1 ≤ inputWindowSamplesN cfg) :
    ∃ e, forward cfg p act
        ⟨[b, cfg.in_channels, inputWindowSamplesN cfg], d⟩ =
      some ⟨[b, cfg.n_classes], e⟩ :=
  forward_some_of_range cfg p act b (inputWindowSamplesN cfg) _ (Or.inl rfl)
    hodd hws le_rfl (by omega)

/-- Claim C1 (witness): the amended statement at the reference
configuration (kernel unit 25, window 1125 samples) with batch 2. -/
theorem claim_C1_witness :
    kernelUnitN (initialCfg refCfg) % 2 = 1 ∧
    1 ≤ inputWindowSamplesN refCfg ∧
    ∃ e, forward refCfg zeroNet relu
        (⟨[2, refCfg.in_channels, inputWindowSamplesN refCfg],
          fun _ => 0⟩ : Tensor) =
      some ⟨[2, refCfg.n_classes], e⟩ :=
  ⟨by simp [kernelUnitN_refCfg], by simp [inputWindowSamplesN_refCfg],
    claim_C1_amended refCfg zeroNet relu 2 (fun _ => 0)
      (by simp [kernelUnitN_refCfg]) (by simp [inputWindowSamplesN_refCfg])⟩

/-- Claim C4 (counterexample): the inception module configured with
`in_channels=1, n_filters=1, n_convs=1, kernel_unit_s=2, sfreq=1` has even
kernel unit 2; on an input whose time length 2 equals the largest kernel
width, forward fails (the max-pooling branch produces time length 3, so
concatenation raises) instead of succeeding with the time length
preserved. -/
theorem claim_C4_counterexample :
    kernelUnitN evenIncCfg = 2 ∧
    (2 * evenIncCfg.n_convs - 1) * kernelUnitN evenIncCfg = 2 ∧
    (inceptionForward evenIncCfg zeroInc relu
      (zeroT [1, 1, 1, 2])).isSome = false := by
  refine ⟨?_, ?_, ?_⟩
  · with_unfolding_all rfl
  · with_unfolding_all rfl
  · with_unfolding_all rfl

/-- Claim C4 (amended): for every inception-module configuration whose
derived kernel unit is odd, every input height at least 1 and every time
length T at least the largest kernel width `(2 * n_convs - 1) * kernel_unit`
(odd or even), the forward evaluation succeeds and preserves the time
length T. -/
theorem claim_C4_amended (cfg : InceptionConfig) (p : InceptionParams)
    (act : ℝ → ℝ) (n c h T : ℕ) (d : List ℕ → ℝ) (hc : c = cfg.in_channels)
    (hodd : kernelUnitN cfg % 2 = 1) (hh : 1 ≤ h) (hnc : 1 ≤ cfg.n_convs)
    (hT : (2 * cfg.n_convs - 1) * kernelUnitN cfg ≤ T) :
    ∃ e, inceptionForward cfg p act ⟨[n, c, h, T], d⟩ =
      some ⟨[n, (cfg.n_convs + 1) * cfg.n_filters, h, T], e⟩ := by
  have hT1 : 1 ≤ T :=
    le_trans (Nat.mul_pos (by omega) (by omega) :
      0 < (2 * cfg.n_convs - 1) * kernelUnitN cfg) hT
  exact inceptionForward_some cfg p act n c h T d hc hodd hh hT1

/-- Claim C4 (witness): the amended statement at the odd configuration
(kernel unit 3, one convolution, largest kernel width 3) with an input of
time length 3, both odd and even time lengths being covered by the
universally quantified T. -/
theorem claim_C4_witness :
    kernelUnitN oddIncCfg % 2 = 1 ∧ 1 ≤ oddIncCfg.n_convs ∧
    (2 * oddIncCfg.n_convs - 1) * kernelUnitN oddIncCfg ≤ 3 ∧
    ∃ e, inceptionForward oddIncCfg zeroInc relu
        (⟨[1, 1, 1, 3], fun _ => 0⟩ : Tensor) =
      some ⟨[1, (oddIncCfg.n_convs + 1) * oddIncCfg.n_filters, 1, 3], e⟩ :=
  ⟨by simp [kernelUnitN_oddIncCfg], by decide,
   by rw [kernelUnitN_oddIncCfg]; decide,
   claim_C4_amended oddIncCfg zeroInc relu 1 1 1 3 (fun _ => 0) rfl
     (by simp [kernelUnitN_oddIncCfg]) le_rfl (by decide)
     (by rw [kernelUnitN_oddIncCfg]; decide)⟩

end EEGInceptionMI

namespace EEGInceptionMI

/-- Claim C7 (counterexample): at the reference configuration the forward
evaluation FAILS on a 4-axis input of shape (batch, channels, 1, time) =
(2, 22, 1, 1125): after the axis permuter swaps the last two axes the time
samples sit on the singleton axis and the final average pooling (kernel
spanning 1125) raises.  The 4-axis layout the network accepts is
(batch, channels, time, 1). -/
theorem claim_C7_counterexample :
    inputWindowSamplesN refCfg = 1125 ∧
    (forward refCfg zeroNet relu (zeroT [2, 22, 1, 1125])).isSome = false := by
  constructor
  · with_unfolding_all rfl
  · with_unfolding_all rfl

/-- Claim C7 (amended): the forward evaluation accepts a 4-axis input of
shape (batch, channels, time, 1) - the singleton axis last, as produced by
the dimension normalizer - and maps it to a (batch, n_classes) output of
class log-probabilities, just as for a 3-axis (batch, channels, time)
input; the layout (batch, channels, 1, time) of the claim is rejected. -/
theorem claim_C7_amended (cfg : Config) (p : NetParams) (act : ℝ → ℝ)
    (b : ℕ) (d : List ℕ → ℝ)
    (hodd : kernelUnitN (initialCfg cfg) % 2 = 1)
    (hws : 1 ≤ inputWindowSamplesN cfg) :
    ∃ e, forward cfg p act
        ⟨[b, cfg.in_channels, inputWindowSamplesN cfg, 1], d⟩ =
      some ⟨[b, cfg.n_classes], e⟩ :=
  forward_some_of_range cfg p act b (inputWindowSamplesN cfg) _ (Or.inr rfl)
    hodd hws le_rfl (by omega)

/-- Claim C7 (witness): the amended statement at the reference
configuration on a (2, 22, 1125, 1) input. -/
theorem claim_C7_witness :
    kernelUnitN (initialCfg refCfg) % 2 = 1 ∧
    1 ≤ inputWindowSamplesN refCfg ∧
    ∃ e, forward refCfg zeroNet relu
        (⟨[2, refCfg.in_channels, inputWindowSamplesN refCfg, 1],
          fun _ => 0⟩ : Tensor) =
      some ⟨[2, refCfg.n_classes], e⟩ :=
  ⟨by simp [kernelUnitN_refCfg], by simp [inputWindowSamplesN_refCfg],
    claim_C7_amended refCfg zeroNet relu 2 (fun _ => 0)
      (by simp [kernelUnitN_refCfg]) (by simp [inputWindowSamplesN_refCfg])⟩

/-- Claim C10: for a 3-axis input (batch, in_channels, T) with the correct
channel count, on a well-formed network (odd derived kernel unit, at least
one filter, window length at least 1), the forward evaluation succeeds if
and only if `input_window_samples ≤ T ≤ 2 * input_window_samples - 1`:
below the range the average pooling, whose kernel and default stride both
span `input_window_samples`, raises; above it the pooled width exceeds 1
and the flattened vector no longer matches the linear layer's
`in_features = (n_convs + 1) * n_filters`. -/
theorem claim_C10_success_iff_window_range (cfg : Config) (p : NetParams)
    (act : ℝ → ℝ) (b T : ℕ) (d : List ℕ → ℝ)
    (hodd : kernelUnitN (initialCfg cfg) % 2 = 1)
    (hnf : 1 ≤ cfg.n_filters) (hws : 1 ≤ inputWindowSamplesN cfg) :
    (forward cfg p act ⟨[b, cfg.in_channels, T], d⟩).isSome = true ↔
      (inputWindowSamplesN cfg ≤ T ∧
        T ≤ 2 * inputWindowSamplesN cfg - 1) := by
  constructor
  · intro hS
    by_contra hcon
    rcases Nat.lt_or_ge T (inputWindowSamplesN cfg) with hlt | hge
    · rcases Nat.eq_zero_or_pos T with h0 | hpos
      · subst h0
        rw [forward_none_T0 cfg p act b d] at hS
        simp at hS
      · rw [forward_none_of_small cfg p act b T ⟨[b, cfg.in_channels, T], d⟩ (Or.inl rfl) hodd hpos hlt]
          at hS
        simp at hS
    · have h2 : 2 * inputWindowSamplesN cfg ≤ T := by omega
      rw [forward_none_of_large cfg p act b T ⟨[b, cfg.in_channels, T], d⟩ (Or.inl rfl) hodd hnf hws h2]
        at hS
      simp at hS
  · rintro ⟨h1, h2⟩
    obtain ⟨e, he⟩ := forward_some_of_range cfg p act b T
      ⟨[b, cfg.in_channels, T], d⟩ (Or.inl rfl) hodd hws h1 (by omega)
    rw [he]
    rfl

/-- Claim C10 (witness): the bounds at the reference configuration: the
window length 1125 itself lies in the accepted range, so the forward
evaluation succeeds there. -/
theorem claim_C10_witness :
    kernelUnitN (initialCfg refCfg) % 2 = 1 ∧ 1 ≤ refCfg.n_filters ∧
    1 ≤ inputWindowSamplesN refCfg ∧
    ((forward refCfg zeroNet relu
        (⟨[2, refCfg.in_channels, 1125], fun _ => 0⟩ : Tensor)).isSome = true ↔
      (inputWindowSamplesN refCfg ≤ 1125 ∧
        1125 ≤ 2 * inputWindowSamplesN refCfg - 1)) :=
  ⟨by simp [kernelUnitN_refCfg], by decide, by simp [inputWindowSamplesN_refCfg],
    claim_C10_success_iff_window_range refCfg zeroNet relu 2 1125 (fun _ => 0)
      (by simp [kernelUnitN_refCfg]) (by decide)
      (by simp [inputWindowSamplesN_refCfg])⟩

/-- Claim C3: for every inception-module configuration and every input on
which the module's forward evaluation succeeds, the output is a 4-axis
tensor with exactly `(n_convs + 1) * n_filters` feature channels,
independent of the input channel count. -/
theorem claim_C3_inception_channel_count (cfg : InceptionConfig)
    (p : InceptionParams) (act : ℝ → ℝ) (X y : Tensor)
    (h : inceptionForward cfg p act X = some y) :
    ∃ n h0 w, y.shape = [n, (cfg.n_convs + 1) * cfg.n_filters, h0, w] := by
  simp only [inceptionForward, Option.bind_eq_bind, Option.bind_eq_some] at h
  obtain ⟨X1, hX1, ts, hts, X2, hX2, X2c, hX2c, z, hz, u, hu, hy⟩ := h
  obtain ⟨n, h0, w, hz1, hu1⟩ := batchNorm2d_some_inv _ _ _ _ hu
  have hy2 : y = mapAct act u := (Option.some.inj hy).symm
  refine ⟨n, h0, w, ?_⟩
  rw [hy2]
  simp only [mapAct]
  rw [hu1]
  simp [Nat.mul_comm]

/-- Claim C3 (witness): a successful run of the inception module at
`oddIncCfg` (one convolution, one filter): the output has
(1 + 1) * 1 = 2 feature channels. -/
theorem claim_C3_witness :
    ∃ n h0 w, oddIncOut.shape =
      [n, (oddIncCfg.n_convs + 1) * oddIncCfg.n_filters, h0, w] :=
  claim_C3_inception_channel_count oddIncCfg zeroInc relu
    (zeroT [1, 1, 1, 3]) oddIncOut inception_odd_eq

/-- Claim C8: whenever the forward evaluation succeeds and the network has
at least one class, every row of the output within the batch is a
log-probability distribution: the exponentials of its `n_classes` entries
sum to exactly 1, because the final layer is a log-softmax over the class
axis. -/
theorem claim_C8_log_prob_rows (cfg : Config) (p : NetParams) (act : ℝ → ℝ)
    (X y : Tensor) (h : forward cfg p act X = some y)
    (hcl : 1 ≤ cfg.n_classes) :
    ∃ n, y.shape = [n, cfg.n_classes] ∧ ∀ b, b < n →
      ∑ j ∈ Finset.range cfg.n_classes, Real.exp (y.data [b, j]) = 1 := by
  simp only [forward, Option.bind_eq_bind, Option.bind_eq_some] at h
  obtain ⟨X0, hX0, X1, hX1, res1, hres1, out0, hout0, out1, hout1, out2,
    hout2, res2, hres2, out3, hout3, out4, hout4, out5, hout5, out6, hout6,
    out7, hout7, hsoft⟩ := h
  obtain ⟨n, hsh6, hsh7⟩ := linear_some_inv _ _ _ _ _ _ hout7
  obtain ⟨n2, c2, hsh72, hy⟩ := logSoftmax_some_inv _ _ hsoft
  rw [hsh7] at hsh72
  obtain ⟨hn, hc⟩ : n = n2 ∧ cfg.n_classes = c2 := by simpa using hsh72
  subst hn
  subst hc
  refine ⟨n, ?_, ?_⟩
  · rw [hy]
  · intro b hb
    rw [hy]
    exact logSoftmax_row_sum (fun k => out7.data [b, k]) cfg.n_classes hcl

/-- Claim C8 (witness): the tiny one-class network on an all-zero input:
the single output row exponentiates and sums to 1. -/
theorem claim_C8_witness :
    1 ≤ tinyCfg.n_classes ∧
    ∃ n, tinyOut.shape = [n, tinyCfg.n_classes] ∧ ∀ b, b < n →
      ∑ j ∈ Finset.range tinyCfg.n_classes, Real.exp (tinyOut.data [b, j]) = 1 :=
  ⟨by decide,
    claim_C8_log_prob_rows tinyCfg zeroNet relu (zeroT [1, 1, 1]) tinyOut
      forward_tiny_eq (by decide)⟩

/-- Claim C2: the forward pass computes exactly the data flow the
specification enumerates, in that order: normalize dims and permute;
res1 from the permuted input; the initial inception module followed by the
two stage-1 inception modules in sequence; the sum with res1; res2 computed
from that stage-1 sum before stage 2 runs; the three stage-2 inception
modules in sequence; the sum with res2; average-pool, flatten, linear,
log-softmax. -/
theorem claim_C2_forward_follows_spec_steps (cfg : Config) (p : NetParams)
    (act : ℝ → ℝ) (X : Tensor) :
    forward cfg p act X = forwardSpecSteps cfg p act X := by
  have hr2 : List.range 2 = [0, 1] := rfl
  have hr3 : List.range 3 = [0, 1, 2] := rfl
  simp only [forward, forwardSpecSteps, hr2, hr3, List.foldlM_cons,
    List.foldlM_nil, Option.bind_eq_bind, Option.pure_def, Option.bind_assoc,
    Option.some_bind]

/-- Claim C9: sharing one stateless activation instance across all
submodules (as the constructors do via the default argument) is
behaviorally equivalent to giving each submodule its own independent
activation instance: whenever every per-site activation equals the shared
one, both variants compute identical outputs on every input and
configuration. -/
theorem claim_C9_activation_sharing (cfg : Config) (p : NetParams)
    (s : ActSites) (a : ℝ → ℝ) (h0 : s.initialA = a)
    (h1 : ∀ i, s.inter1A i = a) (h2 : s.res1A = a) (h3 : s.res2A = a)
    (h4 : ∀ i, s.inter2A i = a) (X : Tensor) :
    forwardMulti cfg p s X = forward cfg p a X := by
  simp only [forwardMulti, forward, h0, h1, h2, h3, h4]

/-- Claim C9 (witness): per-site fresh default activations against the
shared default activation on the tiny configuration. -/
theorem claim_C9_witness :
    allRelu.initialA = relu ∧ (∀ i, allRelu.inter1A i = relu) ∧
    allRelu.res1A = relu ∧ allRelu.res2A = relu ∧
    (∀ i, allRelu.inter2A i = relu) ∧
    forwardMulti tinyCfg zeroNet allRelu (zeroT [1, 1, 1]) =
      forward tinyCfg zeroNet relu (zeroT [1, 1, 1]) :=
  ⟨rfl, fun _ => rfl, rfl, rfl, fun _ => rfl,
    claim_C9_activation_sharing tinyCfg zeroNet allRelu relu rfl
      (fun _ => rfl) rfl rfl (fun _ => rfl) (zeroT [1, 1, 1])⟩

end EEGInceptionMI
